import Mathlib

/-!
Verification of the sudoku board model in src/js/sudoku.js (the `SUDOKU`
module). The board logic lives in lines 1-302 of the source; the rest of the
file is canvas rendering, event handling and a table of puzzle strings, all
outside the model verified here.

The embedding is value-level: a board is its list of 81 cells, in the same
row-major index order as the `cells` array of the source, and in-place
mutation becomes functional update. Object identity, which matters only for
the defensive-copy behaviour of the accessors, is modelled separately by
`CellHandle` (an index into the board array for a reference, a plain record
for a fresh copy), mirroring the `copy` flag of `getCellAtPosition`.
-/

namespace Sudoku

/-- A board cell (source: `Cell`, lines 38-47). `value = 0` means empty. -/
structure Cell where
  row : Nat
  column : Nat
  value : Nat
  isFixed : Bool
deriving Repr, DecidableEq

instance : Inhabited Cell := ⟨⟨0, 0, 0, false⟩⟩

/-- `Cell.fromCell` (lines 55-57): field-by-field copy of a cell. -/
def Cell.fromCell (c : Cell) : Cell := ⟨c.row, c.column, c.value, c.isFixed⟩

/-- Source lines 14-16. -/
def calcCellIndexFromBoardPosition (row col : Nat) : Nat := (row - 1) * 9 + (col - 1)

/-- Source lines 18-25. -/
def calcBoardPositionFromIndex (idx : Nat) : Nat × Nat := (idx / 9 + 1, idx % 9 + 1)

/-- `unique` (lines 4-12): keeps the first occurrence of each element. The
source compares with the JS identity test `===`; on boards whose cells carry
their canonical positions, identity of board cell objects coincides with
equality of the records, which is the comparison used here. -/
def unique (l : List Cell) : List Cell :=
  l.foldl (fun result elem => if elem ∈ result then result else result ++ [elem]) []

/-- The three causes of the `SudokuBoardError` thrown by `Board.init`
(lines 73-96), distinguished by their message text. -/
inductive BoardError where
  | notAString
  | wrongLength
  | invalidCellValue
deriving Repr, DecidableEq

/-- An argument passed to the `Board` constructor: either a string (as a
character list) or any non-string value (the `typeof boardDef !== "string"`
branch, line 73). -/
inductive BoardDefArg where
  | str (chars : List Char)
  | nonString

/-- `parseInt(ch, 10)` applied to a single character (line 88): the digit
value for the characters 0-9 (codes 48-57), otherwise NaN (`none`). -/
def parseDigit (ch : Char) : Option Nat :=
  if 48 ≤ ch.toNat ∧ ch.toNat ≤ 57 then some (ch.toNat - 48) else none

/-- The `for` loop of `Board.init` (lines 86-99): cell `i` gets the position
`calcBoardPositionFromIndex i`, the parsed digit as value, and
`fixed = (num !== 0)`; a NaN or out-of-range digit aborts the whole
construction with the invalid-cell-value error (lines 91-96). -/
def initLoop : Nat → List Char → Except BoardError (List Cell)
  | _, [] => .ok []
  | i, ch :: rest =>
    match parseDigit ch with
    | none => .error .invalidCellValue
    | some num =>
      if 9 < num then .error .invalidCellValue
      else
        match initLoop (i + 1) rest with
        | .error e => .error e
        | .ok cs =>
          .ok (Cell.mk (calcBoardPositionFromIndex i).1 (calcBoardPositionFromIndex i).2
                num (num != 0) :: cs)

/-- `Board.init` (lines 69-100): type check, length check, then the cell
loop. An error means the `Board` constructor throws and no board exists. -/
def buildBoard : BoardDefArg → Except BoardError (List Cell)
  | .nonString => .error .notAString
  | .str chars =>
    if chars.length ≠ 81 then .error .wrongLength
    else initLoop 0 chars

/-- `getCellAtPosition` (lines 102-106), value part: array lookup at the
computed index. The `copy` flag only affects object identity and is modelled
by `getCellAtPositionH` below. -/
def getCellAtPosition (cells : List Cell) (row col : Nat) : Cell :=
  cells.getD (calcCellIndexFromBoardPosition row col) default

/-- `Board.getCell` (lines 168-170): the cell at the position, copied. -/
def getCell (cells : List Cell) (row col : Nat) : Cell :=
  Cell.fromCell (getCellAtPosition cells row col)

/-- `Board.getBoard` (lines 157-159): `$.extend(true, [], cells)`, a deep
copy of the whole cell array. -/
def getBoard (cells : List Cell) : List Cell := cells.map Cell.fromCell

/-- `Board.setCellValue` (lines 179-185): overwrite the value unless the
cell is fixed; return the new board together with `!cell.isFixed`. -/
def setCellValue (cells : List Cell) (row col value : Nat) : List Cell × Bool :=
  let idx := calcCellIndexFromBoardPosition row col
  let cell := cells.getD idx default
  if cell.isFixed then (cells, false)
  else (cells.set idx { cell with value := value }, true)

/-- The indices visited for row `r+1` by `walkCellsByRow` (lines 108-119),
columns 1..9 in order. -/
def rowIndices (r : Nat) : List Nat :=
  (List.range 9).map fun j => calcCellIndexFromBoardPosition (r + 1) (j + 1)

/-- The indices visited for column `c+1` by `walkCellsByColumn`
(lines 121-132), rows 1..9 in order. -/
def colIndices (c : Nat) : List Nat :=
  (List.range 9).map fun i => calcCellIndexFromBoardPosition (i + 1) (c + 1)

/-- `firstCellIdx` of box `t` (0-based), line 138. -/
def boxFirstCellIdx (t : Nat) : Nat := t / 3 * 27 + t % 3 * 3

/-- The `cellIndices` array of `walkCellsByBox` (lines 139-141). -/
def boxIndicesList (t : Nat) : List Nat :=
  [boxFirstCellIdx t, boxFirstCellIdx t + 1, boxFirstCellIdx t + 2,
   boxFirstCellIdx t + 9, boxFirstCellIdx t + 10, boxFirstCellIdx t + 11,
   boxFirstCellIdx t + 18, boxFirstCellIdx t + 19, boxFirstCellIdx t + 20]

/-- The cells of the board at the given indices, in order. -/
def groupOfIndices (cells : List Cell) (idxs : List Nat) : List Cell :=
  idxs.map fun i => cells.getD i default

/-- The nine groups produced by `walkCellsByRow`: group `r` holds the cells
of row `r+1`; the `newRow` signal at `col === 1` is the group boundary. -/
def rowsOf (cells : List Cell) : List (List Cell) :=
  (List.range 9).map fun r => groupOfIndices cells (rowIndices r)

/-- The nine groups produced by `walkCellsByColumn`; the `newCol` signal at
`row === 1` is the group boundary. -/
def colsOf (cells : List Cell) : List (List Cell) :=
  (List.range 9).map fun c => groupOfIndices cells (colIndices c)

/-- The nine groups produced by `walkCellsByBox`; the `newBox` signal at
`inBoxIdx === 0` is the group boundary. -/
def boxesOf (cells : List Cell) : List (List Cell) :=
  (List.range 9).map fun t => groupOfIndices cells (boxIndicesList t)

/-- `walkCellsByBox` (lines 134-150) as the flat list of callback arguments
`(cell, boxIdx + 1, newBox)`, in visiting order. -/
def walkCellsByBox (cells : List Cell) : List (Cell × Nat × Bool) :=
  (List.range 9).flatMap fun t =>
    (List.range 9).map fun k =>
      (cells.getD ((boxIndicesList t).getD k 0) default, t + 1, k == 0)

/-- The per-group loop body of `hasWon`'s `check` (lines 197-213): `used` is
the set of values seen so far in the current group; an empty cell or a
repeated value makes `won` false. -/
def groupWonAux : List Nat → List Cell → Bool
  | _, [] => true
  | used, c :: rest =>
    if c.value = 0 then false
    else if c.value ∈ used then false
    else groupWonAux (c.value :: used) rest

/-- The all-groups value of one `check(walkFun)` call of `hasWon` when
`won` is true on entry: every group of the traversal must pass. The early
exit of the source changes no result, only work done. -/
def checkWon (groups : List (List Cell)) : Bool :=
  groups.all fun g => groupWonAux [] g

/-- One `check(walkFun)` call of `hasWon` (lines 195-214) as a function of
the enclosing `won` variable it mutates: `check` only ever lowers `won` to
false, and when `won` is false on entry the callback returns false at the
first visited cell (lines 209-212), leaving it false; so the call computes
`won && checkWon groups`. -/
def checkWonFrom (won : Bool) (groups : List (List Cell)) : Bool :=
  won && checkWon groups

/-- `Board.hasWon` (lines 192-225): `won` starts true and the rows are
always checked (line 216), but the column and box checks are guarded by
`if (!won)` (lines 217-222): they run only when `won` is already false,
and then leave it false. The returned value is therefore decided by the
row check alone; the column and box traversals never affect it. -/
def hasWon (cells : List Cell) : Bool :=
  let won := checkWonFrom true (rowsOf cells)
  let won := if !won then checkWonFrom won (colsOf cells) else won
  let won := if !won then checkWonFrom won (boxesOf cells) else won
  won

/-- The keys of the `cellsWithValue` map after one group of `getConflicts`
(lines 250-256): the distinct nonzero values of the group. JS enumerates
integer-like object keys in ascending order, hence the sort. -/
def sortedKeys (g : List Cell) : List Nat :=
  List.insertionSort (· ≤ ·) ((g.map Cell.value).filter (fun v => v != 0)).dedup

/-- The `cellsWithValue[v]` bucket after one group: the cells of the group
holding value `v`, in visiting order (lines 250-256). -/
def bucket (g : List Cell) (v : Nat) : List Cell := g.filter fun c => c.value == v

/-- The flush of one group (lines 240-246 and 260-264): every bucket with
more than one cell contributes all of its cells. -/
def groupConflicts (g : List Cell) : List Cell :=
  (sortedKeys g).flatMap fun v => if 1 < (bucket g v).length then bucket g v else []

/-- One `check(walkFun)` call of `getConflicts`: each group is flushed once
(previous-group flush at each `newX`, plus the final flush). -/
def checkConflicts (groups : List (List Cell)) : List Cell :=
  groups.flatMap groupConflicts

/-- The sort comparator of `getConflicts` (lines 272-285): ascending row,
then ascending column. -/
def cellLe (a b : Cell) : Prop := a.row < b.row ∨ (a.row = b.row ∧ a.column ≤ b.column)

instance : DecidableRel cellLe := fun a b => by unfold cellLe; infer_instance

/-- `Board.getConflicts` (lines 233-288): the three checks, `unique`, then
the sort. `Array.prototype.sort` with this comparator yields a sorted
rearrangement; it is modelled by insertion sort, which yields one too (on
distinct keys the sorted rearrangement is unique). -/
def getConflicts (cells : List Cell) : List Cell :=
  List.insertionSort cellLe
    (unique (checkConflicts (rowsOf cells) ++ checkConflicts (colsOf cells) ++
      checkConflicts (boxesOf cells)))

/-- The per-cell update of `Board.restart` (lines 293-299). -/
def resetCell (c : Cell) : Cell := if c.isFixed then c else { c with value := 0 }

/-- `Board.restart` (lines 293-299): `walkCellsByRow` visits each of the 81
cells exactly once (index `(row-1)*9+(col-1)` takes each value in [0,81)
once) and applies the in-place update `resetCell`, i.e. a pointwise map. -/
def restart (cells : List Cell) : List Cell := cells.map resetCell

/-! ### Object identity model

A `CellHandle` is what a caller holds after an accessor returns: either a
reference aliasing the board's internal cell object at some index (the
`copy === false` path of `getCellAtPosition`, and raw `cells[...]` reads),
or a freshly allocated copy. Writing a field through a handle mutates the
board exactly when the handle is a reference. -/

inductive CellHandle where
  | ref (idx : Nat)
  | copy (c : Cell)
deriving Repr, DecidableEq

/-- Reading the cell a handle designates. -/
def readCell (cells : List Cell) : CellHandle → Cell
  | .ref idx => cells.getD idx default
  | .copy c => c

/-- The 1-based box number of a cell position, from the box geometry of the
spec: box-row `(row-1)/3`, box-column `(column-1)/3`. -/
def boxNum (c : Cell) : Nat := 3 * ((c.row - 1) / 3) + (c.column - 1) / 3 + 1

/-- Two cells lie in a common row, column or box group. -/
def sameGroupPos (c d : Cell) : Prop :=
  c.row = d.row ∨ c.column = d.column ∨ boxNum c = boxNum d

instance : ∀ c d, Decidable (sameGroupPos c d) := fun c d => by
  unfold sameGroupPos; infer_instance

/-- The claim's description of a conflicting cell: a nonzero value equal to
another cell's value within some group both belong to. -/
def isConflicted (b : List Cell) (c : Cell) : Prop :=
  c.value ≠ 0 ∧ ∃ d ∈ b, d ≠ c ∧ d.value = c.value ∧ sameGroupPos c d

instance : ∀ b c, Decidable (isConflicted b c) := fun b c => by
  unfold isConflicted; infer_instance

/-- Every cell of the list carries the position its index encodes; this
holds for every board the constructor produces and is preserved by every
operation. -/
def Canonical (cells : List Cell) : Prop :=
  ∀ i < cells.length, (cells.getD i default).row = i / 9 + 1 ∧
    (cells.getD i default).column = i % 9 + 1

instance : ∀ cells, Decidable (Canonical cells) := fun cells => by
  unfold Canonical; infer_instance

/-- Strict row-major order on positions: the sort order of `getConflicts`
restricted to distinct positions. -/
def cellLt (a b : Cell) : Prop := a.row < b.row ∨ (a.row = b.row ∧ a.column < b.column)

/-! ### Basic lemmas -/

lemma Cell.fromCell_eq (c : Cell) : Cell.fromCell c = c := rfl

lemma getBoard_eq (cells : List Cell) : getBoard cells = cells := by
  unfold getBoard
  have h : Cell.fromCell = id := funext fun c => rfl
  rw [h, List.map_id]

lemma map_getD_range {α : Type*} (l : List α) (d : α) :
    (List.range l.length).map (fun i => l.getD i d) = l := by
  apply List.ext_getElem
  · simp
  · intro i h1 h2
    rw [List.getElem_map, List.getElem_range]
    exact List.getD_eq_getElem _ _ h2

lemma mem_foldl_unique (l : List Cell) :
    ∀ (acc : List Cell) (a : Cell),
      (a ∈ l.foldl (fun result elem => if elem ∈ result then result else result ++ [elem]) acc) ↔
        a ∈ acc ∨ a ∈ l := by
  induction l with
  | nil => simp
  | cons x xs ih =>
    intro acc a
    simp only [List.foldl_cons]
    by_cases hx : x ∈ acc
    · rw [if_pos hx, ih]
      constructor
      · rintro (h | h)
        · exact Or.inl h
        · exact Or.inr (List.mem_cons_of_mem _ h)
      · rintro (h | h)
        · exact Or.inl h
        · rcases List.mem_cons.mp h with rfl | h
          · exact Or.inl hx
          · exact Or.inr h
    · rw [if_neg hx, ih]
      simp only [List.mem_append, List.mem_cons, List.mem_singleton]
      tauto

lemma mem_unique {l : List Cell} {a : Cell} : a ∈ unique l ↔ a ∈ l := by
  unfold unique
  rw [mem_foldl_unique]
  simp

lemma nodup_foldl_unique (l : List Cell) :
    ∀ acc : List Cell, acc.Nodup →
      (l.foldl (fun result elem =>
        if elem ∈ result then result else result ++ [elem]) acc).Nodup := by
  induction l with
  | nil => intro acc h; simpa using h
  | cons x xs ih =>
    intro acc h
    simp only [List.foldl_cons]
    by_cases hx : x ∈ acc
    · rw [if_pos hx]; exact ih acc h
    · rw [if_neg hx]
      refine ih _ ?_
      simp [List.nodup_append, h, hx]

lemma nodup_unique (l : List Cell) : (unique l).Nodup :=
  nodup_foldl_unique l [] List.nodup_nil

lemma mem_iff_getD {cells : List Cell} (hlen : cells.length = 81) {c : Cell} :
    c ∈ cells ↔ ∃ i, i < 81 ∧ cells.getD i default = c := by
  rw [List.mem_iff_getElem]
  constructor
  · rintro ⟨i, hi, rfl⟩
    exact ⟨i, by omega, List.getD_eq_getElem _ _ hi⟩
  · rintro ⟨i, hi, h⟩
    have hi' : i < cells.length := by omega
    exact ⟨i, hi', by rw [← List.getD_eq_getElem _ _ hi', h]⟩

lemma getD_mem {cells : List Cell} {i : Nat} (hi : i < cells.length) :
    cells.getD i default ∈ cells := by
  rw [List.getD_eq_getElem _ _ hi]
  exact List.getElem_mem hi

lemma getD_inj {cells : List Cell} (hlen : cells.length = 81) (hcan : Canonical cells)
    {i j : Nat} (hi : i < 81) (hj : j < 81)
    (h : cells.getD i default = cells.getD j default) : i = j := by
  have h1 := hcan i (by omega)
  have h2 := hcan j (by omega)
  rw [h] at h1
  omega

lemma pos_inj {cells : List Cell} (hlen : cells.length = 81) (hcan : Canonical cells)
    {c d : Cell} (hc : c ∈ cells) (hd : d ∈ cells)
    (hrow : c.row = d.row) (hcol : c.column = d.column) : c = d := by
  rw [mem_iff_getD hlen] at hc hd
  obtain ⟨i, hi, rfl⟩ := hc
  obtain ⟨j, hj, rfl⟩ := hd
  have h1 := hcan i (by omega)
  have h2 := hcan j (by omega)
  have : i = j := by omega
  rw [this]

/-! ### Index-set facts for the three traversals, settled by computation -/

lemma rowIndices_facts : ∀ t < 9, (∀ i ∈ rowIndices t, i < 81 ∧ i / 9 = t) ∧
    (∀ i < 81, i / 9 = t → i ∈ rowIndices t) ∧ (rowIndices t).Nodup := by decide

lemma colIndices_facts : ∀ t < 9, (∀ i ∈ colIndices t, i < 81 ∧ i % 9 = t) ∧
    (∀ i < 81, i % 9 = t → i ∈ colIndices t) ∧ (colIndices t).Nodup := by decide

lemma boxIndices_facts : ∀ t < 9,
    (∀ i ∈ boxIndicesList t, i < 81 ∧ 3 * (i / 9 / 3) + i % 9 / 3 = t) ∧
    (∀ i < 81, 3 * (i / 9 / 3) + i % 9 / 3 = t → i ∈ boxIndicesList t) ∧
    (boxIndicesList t).Nodup := by decide

/-! ### Group membership lemmas -/

lemma mem_groupOfIndices {cells : List Cell} {I : List Nat} {c : Cell} :
    c ∈ groupOfIndices cells I ↔ ∃ i ∈ I, cells.getD i default = c := by
  simp [groupOfIndices]

lemma group_subset {cells : List Cell} (hlen : cells.length = 81) {I : List Nat}
    (hI81 : ∀ i ∈ I, i < 81) : ∀ c ∈ groupOfIndices cells I, c ∈ cells := by
  intro c hc
  rw [mem_groupOfIndices] at hc
  obtain ⟨i, hiI, rfl⟩ := hc
  exact getD_mem (by have := hI81 i hiI; omega)

lemma nodup_group {cells : List Cell} (hlen : cells.length = 81) (hcan : Canonical cells)
    {I : List Nat} (hI81 : ∀ i ∈ I, i < 81) (hnd : I.Nodup) :
    (groupOfIndices cells I).Nodup := by
  refine List.Nodup.map_on ?_ hnd
  intro x hx y hy hxy
  exact getD_inj hlen hcan (hI81 x hx) (hI81 y hy) hxy

lemma mem_rowGroup {cells : List Cell} (hlen : cells.length = 81) (hcan : Canonical cells)
    {t : Nat} (ht : t < 9) {c : Cell} :
    c ∈ groupOfIndices cells (rowIndices t) ↔ c ∈ cells ∧ c.row = t + 1 := by
  obtain ⟨hmem, hrev, -⟩ := rowIndices_facts t ht
  rw [mem_groupOfIndices]
  constructor
  · rintro ⟨i, hiI, rfl⟩
    obtain ⟨hi81, hdiv⟩ := hmem i hiI
    have hcell := hcan i (by omega)
    exact ⟨getD_mem (by omega), by omega⟩
  · rintro ⟨hc, hrow⟩
    rw [mem_iff_getD hlen] at hc
    obtain ⟨i, hi, rfl⟩ := hc
    have hcell := hcan i (by omega)
    exact ⟨i, hrev i hi (by omega), rfl⟩

lemma mem_colGroup {cells : List Cell} (hlen : cells.length = 81) (hcan : Canonical cells)
    {t : Nat} (ht : t < 9) {c : Cell} :
    c ∈ groupOfIndices cells (colIndices t) ↔ c ∈ cells ∧ c.column = t + 1 := by
  obtain ⟨hmem, hrev, -⟩ := colIndices_facts t ht
  rw [mem_groupOfIndices]
  constructor
  · rintro ⟨i, hiI, rfl⟩
    obtain ⟨hi81, hmod⟩ := hmem i hiI
    have hcell := hcan i (by omega)
    exact ⟨getD_mem (by omega), by omega⟩
  · rintro ⟨hc, hcol⟩
    rw [mem_iff_getD hlen] at hc
    obtain ⟨i, hi, rfl⟩ := hc
    have hcell := hcan i (by omega)
    exact ⟨i, hrev i hi (by omega), rfl⟩

lemma mem_boxGroup {cells : List Cell} (hlen : cells.length = 81) (hcan : Canonical cells)
    {t : Nat} (ht : t < 9) {c : Cell} :
    c ∈ groupOfIndices cells (boxIndicesList t) ↔ c ∈ cells ∧ boxNum c = t + 1 := by
  obtain ⟨hmem, hrev, -⟩ := boxIndices_facts t ht
  rw [mem_groupOfIndices]
  constructor
  · rintro ⟨i, hiI, rfl⟩
    obtain ⟨hi81, hbox⟩ := hmem i hiI
    have hcell := hcan i (by omega)
    refine ⟨getD_mem (by omega), ?_⟩
    unfold boxNum
    omega
  · rintro ⟨hc, hbox⟩
    rw [mem_iff_getD hlen] at hc
    obtain ⟨i, hi, rfl⟩ := hc
    have hcell := hcan i (by omega)
    unfold boxNum at hbox
    exact ⟨i, hrev i hi (by omega), rfl⟩

/-! ### Construction lemmas -/

lemma initLoop_ok (chars : List Char) :
    ∀ i, (∀ ch ∈ chars, 48 ≤ ch.toNat ∧ ch.toNat ≤ 57) →
      ∃ cs, initLoop i chars = .ok cs ∧ cs.length = chars.length ∧
        ∀ j < chars.length, cs.getD j default =
          ⟨(i + j) / 9 + 1, (i + j) % 9 + 1, (chars.getD j ' ').toNat - 48,
            (chars.getD j ' ').toNat - 48 != 0⟩ := by
  induction chars with
  | nil => exact fun i h => ⟨[], rfl, rfl, fun j hj => absurd hj (by simp)⟩
  | cons ch rest ih =>
    intro i h
    have hch := h ch (List.mem_cons_self ch rest)
    obtain ⟨cs, hcs, hlen, hchar⟩ := ih (i + 1) (fun c hc => h c (List.mem_cons_of_mem _ hc))
    have hparse : parseDigit ch = some (ch.toNat - 48) := by
      unfold parseDigit
      rw [if_pos hch]
    have h9 : ¬ 9 < ch.toNat - 48 := by omega
    refine ⟨Cell.mk (i / 9 + 1) (i % 9 + 1) (ch.toNat - 48) (ch.toNat - 48 != 0) :: cs,
      ?_, ?_, ?_⟩
    · simp only [initLoop, hparse, if_neg h9, hcs, calcBoardPositionFromIndex]
    · simp [hlen]
    · intro j hj
      match j with
      | 0 => simp
      | Nat.succ j' =>
        simp only [List.getD_cons_succ]
        have harith : i + 1 + j' = i + (j' + 1) := by omega
        rw [hchar j' (by simpa using hj), harith]

lemma initLoop_value_le (chars : List Char) :
    ∀ i cs, initLoop i chars = .ok cs → ∀ c ∈ cs, c.value ≤ 9 := by
  induction chars with
  | nil =>
    intro i cs h c hc
    cases h
    simp at hc
  | cons ch rest ih =>
    intro i cs h c hc
    unfold initLoop at h
    split at h
    · cases h
    · rename_i num hp
      split at h
      · cases h
      · rename_i h9
        split at h
        · cases h
        · rename_i cs' hr
          cases h
          rcases List.mem_cons.mp hc with rfl | hc'
          · show num ≤ 9
            omega
          · exact ih (i + 1) cs' hr c hc'

lemma initLoop_error_of_nonDigit (chars : List Char) :
    ∀ i, (∃ ch ∈ chars, ¬(48 ≤ ch.toNat ∧ ch.toNat ≤ 57)) →
      initLoop i chars = .error .invalidCellValue := by
  induction chars with
  | nil =>
    intro i h
    simp at h
  | cons ch rest ih =>
    intro i h
    by_cases hch : 48 ≤ ch.toNat ∧ ch.toNat ≤ 57
    · have hrest : ∃ c ∈ rest, ¬(48 ≤ c.toNat ∧ c.toNat ≤ 57) := by
        obtain ⟨c, hc, hnc⟩ := h
        rcases List.mem_cons.mp hc with rfl | hc'
        · exact absurd hch hnc
        · exact ⟨c, hc', hnc⟩
      have hparse : parseDigit ch = some (ch.toNat - 48) := by
        unfold parseDigit
        rw [if_pos hch]
      have h9 : ¬ 9 < ch.toNat - 48 := by omega
      simp only [initLoop, hparse, if_neg h9, ih (i + 1) hrest]
    · have hparse : parseDigit ch = none := by
        unfold parseDigit
        rw [if_neg hch]
      simp only [initLoop, hparse]

/-! ### Concrete boards used as witnesses -/

/-- Unwraps a successful construction; used only to name the concrete boards
below. -/
def okOr (e : Except BoardError (List Cell)) : List Cell :=
  match e with
  | .ok cs => cs
  | .error _ => []

/-- A complete valid solution string. -/
def solvedChars : List Char :=
  "123456789456789123789123456231564897564897231897231564312645978645978312978312645".toList

def solvedBoard : List Cell := okOr (buildBoard (.str solvedChars))

/-- A board definition with two fives in row 1 and nothing else. -/
def twoFivesChars : List Char :=
  "550000000000000000000000000000000000000000000000000000000000000000000000000000000".toList

def twoFivesBoard : List Cell := okOr (buildBoard (.str twoFivesChars))

/-- The all-empty board definition. -/
def allZeroChars : List Char := List.replicate 81 '0'

def emptyBoard : List Cell := okOr (buildBoard (.str allZeroChars))

/-- A board definition whose nine rows all read 123456789: every row check
passes while every column and every box holds repeated values. -/
def nineRowsChars : List Char :=
  "123456789123456789123456789123456789123456789123456789123456789123456789123456789".toList

def nineRowsBoard : List Cell := okOr (buildBoard (.str nineRowsChars))

/-! ### Claim C3 -/

/-- C3: for every string of exactly 81 decimal-digit characters, construction
succeeds and, observed through `getBoard` in row-major order, cell `i` has
row `i/9+1`, column `i%9+1`, the digit at index `i` as value, and `isFixed`
exactly when that digit is nonzero. -/
theorem construction_spec (chars : List Char) (hlen : chars.length = 81)
    (hdig : ∀ ch ∈ chars, 48 ≤ ch.toNat ∧ ch.toNat ≤ 57) :
    buildBoard (.str chars) = .ok (okOr (buildBoard (.str chars))) ∧
    (getBoard (okOr (buildBoard (.str chars)))).length = 81 ∧
    ∀ i < 81, (getBoard (okOr (buildBoard (.str chars)))).getD i default =
      ⟨i / 9 + 1, i % 9 + 1, (chars.getD i ' ').toNat - 48,
        (chars.getD i ' ').toNat - 48 != 0⟩ := by
  obtain ⟨cs, hcs, hl, hchar⟩ := initLoop_ok chars 0 hdig
  have hb : buildBoard (.str chars) = .ok cs := by
    show (if chars.length ≠ 81 then Except.error BoardError.wrongLength
      else initLoop 0 chars) = Except.ok cs
    rw [if_neg (by omega)]
    exact hcs
  have hok : okOr (buildBoard (.str chars)) = cs := by
    rw [hb]
    rfl
  rw [hok, hb, getBoard_eq]
  refine ⟨rfl, by omega, ?_⟩
  intro i hi
  have := hchar i (by omega)
  simpa using this

theorem construction_spec_witness : (getBoard solvedBoard).length = 81 :=
  (construction_spec solvedChars (by decide) (by decide)).2.1

/-! ### Claim C4 -/

/-- C4: construction fails with the `notAString` cause for a non-string
input, with `wrongLength` when the length differs from 81, and with
`invalidCellValue` when some character is not a decimal digit; in every
failure case the result is an error, so no board is produced (all or
nothing); on an 81-digit string it succeeds. -/
theorem construction_failure_spec :
    (buildBoard .nonString = .error .notAString) ∧
    (∀ chars : List Char, chars.length ≠ 81 →
      buildBoard (.str chars) = .error .wrongLength) ∧
    (∀ chars : List Char, chars.length = 81 →
      (∃ ch ∈ chars, ¬(48 ≤ ch.toNat ∧ ch.toNat ≤ 57)) →
      buildBoard (.str chars) = .error .invalidCellValue) ∧
    (∀ chars : List Char, chars.length = 81 →
      (∀ ch ∈ chars, 48 ≤ ch.toNat ∧ ch.toNat ≤ 57) →
      buildBoard (.str chars) = .ok (okOr (buildBoard (.str chars)))) := by
  refine ⟨rfl, ?_, ?_, ?_⟩
  · intro chars h
    show (if chars.length ≠ 81 then Except.error BoardError.wrongLength
      else initLoop 0 chars) = Except.error BoardError.wrongLength
    rw [if_pos h]
  · intro chars hl h
    show (if chars.length ≠ 81 then Except.error BoardError.wrongLength
      else initLoop 0 chars) = Except.error BoardError.invalidCellValue
    rw [if_neg (by omega)]
    exact initLoop_error_of_nonDigit chars 0 h
  · intro chars hl h
    exact (construction_spec chars hl h).1

theorem construction_failure_spec_witness :
    buildBoard (.str (List.replicate 80 '0')) = .error .wrongLength :=
  construction_failure_spec.2.1 (List.replicate 80 '0') (by decide)

/-! ### Claim C5 -/

/-- C5: for a position in [1,9]x[1,9] and any attempted value, writing to a
fixed cell returns false and changes nothing; writing to a non-fixed cell
returns true and the new value is immediately observable via `getCell`. -/
theorem setCellValue_spec (cells : List Cell) (row col v : Nat)
    (hlen : cells.length = 81) (hr1 : 1 ≤ row) (hr9 : row ≤ 9)
    (hc1 : 1 ≤ col) (hc9 : col ≤ 9) :
    ((getCellAtPosition cells row col).isFixed = true →
      setCellValue cells row col v = (cells, false)) ∧
    ((getCellAtPosition cells row col).isFixed = false →
      (setCellValue cells row col v).2 = true ∧
      (getCell (setCellValue cells row col v).1 row col).value = v) := by
  have hidx : calcCellIndexFromBoardPosition row col < cells.length := by
    unfold calcCellIndexFromBoardPosition
    omega
  constructor
  · intro hf
    unfold setCellValue
    unfold getCellAtPosition at hf
    simp only [hf]
    simp
  · intro hf
    unfold setCellValue
    unfold getCellAtPosition at hf
    simp only [hf]
    simp only [Bool.false_eq_true, if_false]
    refine ⟨by trivial, ?_⟩
    unfold getCell getCellAtPosition
    rw [Cell.fromCell_eq,
      List.getD_eq_getElem _ _ (by simpa using hidx)]
    simp

theorem setCellValue_spec_witness :
    (setCellValue emptyBoard 1 1 5).2 = true ∧
    (getCell (setCellValue emptyBoard 1 1 5).1 1 1).value = 5 :=
  (setCellValue_spec emptyBoard 1 1 5 (by decide) (by decide) (by decide) (by decide)
    (by decide)).2 (by decide)

/-! ### Claim C6 -/

/-- C6 counterexample: `setCellValue` performs no range check, so writing 10
into a non-fixed cell of a freshly constructed board leaves the board with a
cell value outside [0,9]; the claimed invariant is not preserved by every
`setCellValue` call. -/
theorem valueRange_counterexample :
    (getCell (setCellValue emptyBoard 1 1 10).1 1 1).value = 10 ∧
    ¬ (getCell (setCellValue emptyBoard 1 1 10).1 1 1).value ≤ 9 := by
  constructor
  · decide
  · decide

/-- C6 amended: every cell value lies in [0,9] after construction, and the
invariant is preserved by `restart` and by every `setCellValue` call whose
written value itself lies in [0,9]; it is not preserved by out-of-range
writes (see the counterexample). -/
theorem valueRange_invariant :
    (∀ (arg : BoardDefArg) (cells : List Cell), buildBoard arg = .ok cells →
      ∀ c ∈ cells, c.value ≤ 9) ∧
    (∀ (cells : List Cell) (row col v : Nat), (∀ c ∈ cells, c.value ≤ 9) → v ≤ 9 →
      ∀ c ∈ (setCellValue cells row col v).1, c.value ≤ 9) ∧
    (∀ cells : List Cell, (∀ c ∈ cells, c.value ≤ 9) →
      ∀ c ∈ restart cells, c.value ≤ 9) := by
  refine ⟨?_, ?_, ?_⟩
  · intro arg cells h c hc
    match arg with
    | .nonString => cases h
    | .str chars =>
      have h' : (if chars.length ≠ 81 then Except.error BoardError.wrongLength
        else initLoop 0 chars) = Except.ok cells := h
      by_cases hl : chars.length ≠ 81
      · rw [if_pos hl] at h'; cases h'
      · rw [if_neg hl] at h'
        exact initLoop_value_le chars 0 cells h' c hc
  · intro cells row col v hall hv c hc
    unfold setCellValue at hc
    by_cases hf : (cells.getD (calcCellIndexFromBoardPosition row col) default).isFixed
    · simp only [hf, if_true] at hc
      exact hall c hc
    · simp only [hf, Bool.false_eq_true, if_false] at hc
      rcases List.mem_or_eq_of_mem_set hc with hc' | rfl
      · exact hall c hc'
      · exact hv
  · intro cells hall c hc
    unfold restart at hc
    obtain ⟨d, hd, rfl⟩ := List.mem_map.mp hc
    unfold resetCell
    by_cases hf : d.isFixed
    · simpa [hf] using hall d hd
    · simp [hf]

theorem valueRange_invariant_witness : (emptyBoard.getD 0 default).value ≤ 9 :=
  valueRange_invariant.1 (.str allZeroChars) emptyBoard (by rfl)
    (emptyBoard.getD 0 default) (getD_mem (by decide))

/-! ### Claim C8 -/

lemma resetCell_fields (c : Cell) :
    (resetCell c).row = c.row ∧ (resetCell c).column = c.column ∧
    (resetCell c).isFixed = c.isFixed := by
  unfold resetCell
  by_cases hf : c.isFixed <;> simp [hf]

/-- C8: `restart` sets every non-fixed cell's value to 0, leaves every fixed
cell unchanged, and is idempotent. -/
theorem restart_spec (cells : List Cell) :
    (restart cells).length = cells.length ∧
    (∀ i < cells.length,
      (restart cells).getD i default =
        (if (cells.getD i default).isFixed then cells.getD i default
          else { cells.getD i default with value := 0 })) ∧
    restart (restart cells) = restart cells := by
  refine ⟨by simp [restart], ?_, ?_⟩
  · intro i hi
    unfold restart
    rw [List.getD_eq_getElem _ _ (by simpa using hi), List.getElem_map,
      ← List.getD_eq_getElem _ _ hi]
    unfold resetCell
    rfl
  · unfold restart
    rw [List.map_map]
    congr 1
    funext c
    simp only [Function.comp_apply, resetCell]
    by_cases hf : c.isFixed
    · simp [hf]
    · simp [hf]

theorem restart_spec_witness : restart (restart twoFivesBoard) = restart twoFivesBoard :=
  (restart_spec twoFivesBoard).2.2

/-! ### Claim C10 -/

lemma getD_set_ne {l : List Cell} {i j : Nat} (h : i ≠ j) (a : Cell) :
    (l.set i a).getD j default = l.getD j default := by
  rw [List.getD_eq_getElem?_getD, List.getD_eq_getElem?_getD, List.getElem?_set_ne h]

lemma setCellValue_of_fixed (cells : List Cell) (row col v : Nat)
    (hf : (cells.getD (calcCellIndexFromBoardPosition row col) default).isFixed = true) :
    setCellValue cells row col v = (cells, false) := by
  show (if (cells.getD (calcCellIndexFromBoardPosition row col) default).isFixed = true
      then (cells, false)
      else (cells.set (calcCellIndexFromBoardPosition row col)
        { cells.getD (calcCellIndexFromBoardPosition row col) default with value := v },
        true)) = (cells, false)
  rw [if_pos hf]

lemma setCellValue_of_unfixed (cells : List Cell) (row col v : Nat)
    (hf : (cells.getD (calcCellIndexFromBoardPosition row col) default).isFixed = false) :
    setCellValue cells row col v =
      (cells.set (calcCellIndexFromBoardPosition row col)
        { cells.getD (calcCellIndexFromBoardPosition row col) default with value := v },
        true) := by
  show (if (cells.getD (calcCellIndexFromBoardPosition row col) default).isFixed = true
      then (cells, false)
      else (cells.set (calcCellIndexFromBoardPosition row col)
        { cells.getD (calcCellIndexFromBoardPosition row col) default with value := v },
        true)) = _
  rw [if_neg (by rw [hf]; exact Bool.false_ne_true)]

/-- C10: `setCellValue` leaves every cell other than the addressed one
entirely unchanged and never changes any cell's row, column or isFixed
field; `restart` changes only value fields. -/
theorem mutation_frame_spec (cells : List Cell) (row col v : Nat) :
    (∀ j, j ≠ calcCellIndexFromBoardPosition row col →
      (setCellValue cells row col v).1.getD j default = cells.getD j default) ∧
    (∀ j, ((setCellValue cells row col v).1.getD j default).row =
        (cells.getD j default).row ∧
      ((setCellValue cells row col v).1.getD j default).column =
        (cells.getD j default).column ∧
      ((setCellValue cells row col v).1.getD j default).isFixed =
        (cells.getD j default).isFixed) ∧
    (∀ j, ((restart cells).getD j default).row = (cells.getD j default).row ∧
      ((restart cells).getD j default).column = (cells.getD j default).column ∧
      ((restart cells).getD j default).isFixed = (cells.getD j default).isFixed) := by
  have hsplit : (setCellValue cells row col v).1 = cells ∨
      (setCellValue cells row col v).1 =
        cells.set (calcCellIndexFromBoardPosition row col)
          { cells.getD (calcCellIndexFromBoardPosition row col) default with value := v } := by
    cases hf : (cells.getD (calcCellIndexFromBoardPosition row col) default).isFixed
    · right
      rw [setCellValue_of_unfixed cells row col v hf]
    · left
      rw [setCellValue_of_fixed cells row col v hf]
  refine ⟨?_, ?_, ?_⟩
  · intro j hj
    rcases hsplit with h | h
    · rw [h]
    · rw [h, getD_set_ne (Ne.symm hj)]
  · intro j
    rcases hsplit with h | h
    · rw [h]
      exact ⟨rfl, rfl, rfl⟩
    · rw [h]
      by_cases hj : j = calcCellIndexFromBoardPosition row col
      · rw [← hj]
        by_cases hlt : j < cells.length
        · rw [List.getD_eq_getElem _ _ (by simpa using hlt)]
          rw [List.getElem_set_self (by simpa using hlt)]
          exact ⟨rfl, rfl, rfl⟩
        · rw [List.set_eq_of_length_le (by omega)]
          exact ⟨rfl, rfl, rfl⟩
      · rw [getD_set_ne (Ne.symm hj)]
        exact ⟨rfl, rfl, rfl⟩
  · intro j
    unfold restart
    rw [List.getD_eq_getElem?_getD, List.getD_eq_getElem?_getD, List.getElem?_map]
    cases hcell : cells[j]? with
    | none => simp
    | some c =>
      simp only [Option.map_some', Option.getD_some]
      exact resetCell_fields c

theorem mutation_frame_spec_witness :
    (setCellValue twoFivesBoard 3 3 7).1.getD 0 default = twoFivesBoard.getD 0 default :=
  (mutation_frame_spec twoFivesBoard 3 3 7).1 0 (by decide)

/-! ### Claim C9 -/

lemma getD_flatMap9 {α : Type*} (d : α) (f : Nat → List α) (hf : ∀ t, (f t).length = 9) :
    ∀ (ts : List Nat) (j k : Nat), j < ts.length → k < 9 →
      (ts.flatMap f).getD (j * 9 + k) d = (f (ts.getD j 0)).getD k d := by
  intro ts
  induction ts with
  | nil =>
    intro j k hj hk
    simp at hj
  | cons t ts ih =>
    intro j k hj hk
    match j with
    | 0 =>
      rw [List.flatMap_cons, Nat.zero_mul, Nat.zero_add,
        List.getD_append _ _ _ _ (by rw [hf]; omega)]
      rfl
    | j + 1 =>
      rw [List.flatMap_cons, List.getD_append_right _ _ _ _ (by rw [hf]; omega)]
      have harith : (j + 1) * 9 + k - (f t).length = j * 9 + k := by
        rw [hf]
        ring_nf
        omega
      rw [harith, ih j k (by simpa using hj) hk]
      rfl

lemma boxIndex_position : ∀ t < 9, ∀ k < 9,
    (boxIndicesList t).getD k 0 =
      calcCellIndexFromBoardPosition (3 * (t / 3) + k / 3 + 1) (3 * (t % 3) + k % 3 + 1) := by
  decide

lemma boxIndices_perm : List.Perm ((List.range 9).flatMap boxIndicesList) (List.range 81) := by
  decide

/-- C9: the box traversal visits 81 cells in 9 groups of 9; the entry at
position `t*9+k` is the cell at row `3*(t/3) + k/3 + 1` and column
`3*(t%3) + k%3 + 1` (the row-major cross-product of the box's rows and
columns), carries group number `t+1`, and signals a new group exactly at
`k = 0`; across all boxes the traversal visits every board cell exactly
once. -/
theorem boxTraversal_spec (cells : List Cell) (hlen : cells.length = 81) :
    (walkCellsByBox cells).length = 81 ∧
    List.Perm ((walkCellsByBox cells).map Prod.fst) cells ∧
    (∀ t < 9, ∀ k < 9,
      (walkCellsByBox cells).getD (t * 9 + k) default =
        (getCellAtPosition cells (3 * (t / 3) + k / 3 + 1) (3 * (t % 3) + k % 3 + 1),
          t + 1, k == 0)) := by
  have hflen : ∀ t, ((List.range 9).map
      (fun k => (cells.getD ((boxIndicesList t).getD k 0) default, t + 1, k == 0))).length = 9 :=
    fun t => by rw [List.length_map, List.length_range]
  have hperm : List.Perm ((walkCellsByBox cells).map Prod.fst) cells := by
    have h1 : (walkCellsByBox cells).map Prod.fst
        = ((List.range 9).flatMap boxIndicesList).map (fun i => cells.getD i default) := by
      unfold walkCellsByBox
      rw [List.map_flatMap, List.map_flatMap]
      congr 1
    rw [h1]
    have h3 := boxIndices_perm.map (fun i => cells.getD i default)
    refine h3.trans ?_
    have h4 := map_getD_range cells default
    rw [hlen] at h4
    rw [h4]
  refine ⟨?_, hperm, ?_⟩
  · have h5 : ((walkCellsByBox cells).map Prod.fst).length = cells.length :=
      hperm.length_eq
    rw [List.length_map] at h5
    omega
  · intro t ht k hk
    unfold walkCellsByBox
    rw [getD_flatMap9 default _ hflen (List.range 9) t k (by simpa using ht) hk]
    have hrange : (List.range 9).getD t 0 = t := by
      rw [List.getD_eq_getElem _ _ (by simpa using ht), List.getElem_range]
    rw [hrange]
    have hmap : ((List.range 9).map
        (fun k => (cells.getD ((boxIndicesList t).getD k 0) default, t + 1, k == 0))).getD k default
        = (cells.getD ((boxIndicesList t).getD k 0) default, t + 1, k == 0) := by
      rw [List.getD_eq_getElem _ _ (by simpa using hk), List.getElem_map, List.getElem_range]
    rw [hmap, boxIndex_position t ht k hk]
    rfl

theorem boxTraversal_spec_witness : (walkCellsByBox solvedBoard).length = 81 :=
  (boxTraversal_spec solvedBoard (by decide)).1

/-! ### Claim C1 -/

lemma groupWonAux_spec (g : List Cell) :
    ∀ used : List Nat, groupWonAux used g = true ↔
      ((∀ c ∈ g, c.value ≠ 0) ∧ (g.map Cell.value).Nodup ∧ ∀ c ∈ g, c.value ∉ used) := by
  induction g with
  | nil =>
    intro used
    simp [groupWonAux]
  | cons c rest ih =>
    intro used
    simp only [groupWonAux]
    by_cases h0 : c.value = 0
    · rw [if_pos h0]
      refine iff_of_false (by simp) ?_
      rintro ⟨h1, -, -⟩
      exact h1 c (List.mem_cons_self c rest) h0
    · rw [if_neg h0]
      by_cases hu : c.value ∈ used
      · rw [if_pos hu]
        refine iff_of_false (by simp) ?_
        rintro ⟨-, -, h3⟩
        exact h3 c (List.mem_cons_self c rest) hu
      · rw [if_neg hu, ih]
        constructor
        · rintro ⟨h1, h2, h3⟩
          refine ⟨?_, ?_, ?_⟩
          · intro d hd
            rcases List.mem_cons.mp hd with rfl | hd'
            · exact h0
            · exact h1 d hd'
          · rw [List.map_cons, List.nodup_cons]
            refine ⟨?_, h2⟩
            rw [List.mem_map]
            rintro ⟨d, hd, hdv⟩
            exact h3 d hd (by rw [hdv]; exact List.mem_cons_self _ _)
          · intro d hd
            rcases List.mem_cons.mp hd with rfl | hd'
            · exact hu
            · exact fun hin => h3 d hd' (List.mem_cons_of_mem _ hin)
        · rintro ⟨h1, h2, h3⟩
          rw [List.map_cons, List.nodup_cons, List.mem_map] at h2
          refine ⟨fun d hd => h1 d (List.mem_cons_of_mem _ hd), h2.2, ?_⟩
          intro d hd
          rw [List.mem_cons]
          rintro (hdc | hdu)
          · exact h2.1 ⟨d, hd, hdc⟩
          · exact h3 d (List.mem_cons_of_mem _ hd) hdu

lemma checkWon_spec (groups : List (List Cell)) :
    checkWon groups = true ↔
      ∀ g ∈ groups, (∀ c ∈ g, c.value ≠ 0) ∧ (g.map Cell.value).Nodup := by
  unfold checkWon
  rw [List.all_eq_true]
  constructor
  · intro h g hg
    have h2 := (groupWonAux_spec g []).mp (h g hg)
    exact ⟨h2.1, h2.2.1⟩
  · intro h g hg
    exact (groupWonAux_spec g []).mpr ⟨(h g hg).1, (h g hg).2, by simp⟩

lemma mem_rowsOf {cells : List Cell} {g : List Cell} :
    g ∈ rowsOf cells ↔ ∃ t, t < 9 ∧ groupOfIndices cells (rowIndices t) = g := by
  unfold rowsOf
  simp [List.mem_map, List.mem_range]

lemma mem_colsOf {cells : List Cell} {g : List Cell} :
    g ∈ colsOf cells ↔ ∃ t, t < 9 ∧ groupOfIndices cells (colIndices t) = g := by
  unfold colsOf
  simp [List.mem_map, List.mem_range]

lemma mem_boxesOf {cells : List Cell} {g : List Cell} :
    g ∈ boxesOf cells ↔ ∃ t, t < 9 ∧ groupOfIndices cells (boxIndicesList t) = g := by
  unfold boxesOf
  simp [List.mem_map, List.mem_range]

lemma exists_rowGroup_of_mem {cells : List Cell} (hlen : cells.length = 81) {c : Cell}
    (hc : c ∈ cells) : ∃ g ∈ rowsOf cells, c ∈ g := by
  rw [mem_iff_getD hlen] at hc
  obtain ⟨i, hi, rfl⟩ := hc
  refine ⟨groupOfIndices cells (rowIndices (i / 9)), ?_, ?_⟩
  · exact mem_rowsOf.mpr ⟨i / 9, by omega, rfl⟩
  · rw [mem_groupOfIndices]
    exact ⟨i, (rowIndices_facts (i / 9) (by omega)).2.1 i hi rfl, rfl⟩

lemma length_groupOfIndices {cells : List Cell} {I : List Nat} :
    (groupOfIndices cells I).length = I.length := by
  simp [groupOfIndices]

lemma values_eq_Icc {g : List Cell} (hlen9 : g.length = 9)
    (hnd : (g.map Cell.value).Nodup)
    (hnz : ∀ c ∈ g, c.value ≠ 0) (hle : ∀ c ∈ g, c.value ≤ 9) :
    ∀ v, v ∈ g.map Cell.value ↔ (1 ≤ v ∧ v ≤ 9) := by
  have hsub : (g.map Cell.value).toFinset ⊆ Finset.Icc 1 9 := by
    intro v hv
    rw [List.mem_toFinset, List.mem_map] at hv
    obtain ⟨c, hc, rfl⟩ := hv
    rw [Finset.mem_Icc]
    exact ⟨by have := hnz c hc; omega, hle c hc⟩
  have hcard : (g.map Cell.value).toFinset.card = 9 := by
    rw [List.toFinset_card_of_nodup hnd, List.length_map, hlen9]
  have hicc : (Finset.Icc 1 9 : Finset ℕ).card = 9 := by decide
  have heq : (g.map Cell.value).toFinset = Finset.Icc 1 9 :=
    Finset.eq_of_subset_of_card_le hsub (by omega)
  intro v
  rw [← List.mem_toFinset, heq, Finset.mem_Icc]

/-- Facts shared by every group of the three traversals: it consists of
board cells and has exactly 9 entries. -/
lemma group_basic {cells : List Cell} (hlen : cells.length = 81) {g : List Cell}
    (hg : g ∈ rowsOf cells ++ colsOf cells ++ boxesOf cells) :
    (∀ c ∈ g, c ∈ cells) ∧ g.length = 9 := by
  rcases List.mem_append.mp hg with hg' | hg'
  · rcases List.mem_append.mp hg' with hg'' | hg''
    · obtain ⟨t, ht, rfl⟩ := mem_rowsOf.mp hg''
      refine ⟨group_subset hlen (fun i hi => ((rowIndices_facts t ht).1 i hi).1), ?_⟩
      rw [length_groupOfIndices]
      simp [rowIndices]
    · obtain ⟨t, ht, rfl⟩ := mem_colsOf.mp hg''
      refine ⟨group_subset hlen (fun i hi => ((colIndices_facts t ht).1 i hi).1), ?_⟩
      rw [length_groupOfIndices]
      simp [colIndices]
  · obtain ⟨t, ht, rfl⟩ := mem_boxesOf.mp hg'
    refine ⟨group_subset hlen (fun i hi => ((boxIndices_facts t ht).1 i hi).1), ?_⟩
    rw [length_groupOfIndices]
    rfl

/-- The program computes the row check alone: when the row check passes,
both guarded checks are skipped; when it fails, they start from a false
`won` and keep it false. -/
lemma hasWon_eq_rowCheck (cells : List Cell) :
    hasWon cells = checkWon (rowsOf cells) := by
  unfold hasWon checkWonFrom
  cases h : checkWon (rowsOf cells) <;> simp [h]

/-- C1, the code bug made concrete: `hasWon` ignores the column and box
checks (the `if (!won)` guards on lines 217-222 run them only after the row
check has already failed, where they cannot change the result), so on the
board whose nine rows all read 123456789 it returns true even though every
column — for instance cells (1,1) and (2,1), both holding 1 — and every box
holds repeated values, where the claim demands false. -/
theorem hasWon_code_bug :
    (∀ cells : List Cell, hasWon cells = checkWon (rowsOf cells)) ∧
    hasWon nineRowsBoard = true ∧
    checkWon (colsOf nineRowsBoard) = false ∧
    checkWon (boxesOf nineRowsBoard) = false ∧
    (getCell nineRowsBoard 1 1).value = 1 ∧ (getCell nineRowsBoard 2 1).value = 1 := by
  exact ⟨hasWon_eq_rowCheck, by decide, by decide, by decide, by decide, by decide⟩

/-! ### Claim C2 -/

lemma mem_sortedKeys {g : List Cell} {v : Nat} :
    v ∈ sortedKeys g ↔ v ≠ 0 ∧ ∃ c ∈ g, c.value = v := by
  unfold sortedKeys
  rw [(List.perm_insertionSort _ _).mem_iff, List.mem_dedup, List.mem_filter, List.mem_map]
  constructor
  · rintro ⟨⟨c, hc, rfl⟩, hv⟩
    exact ⟨by simpa using hv, c, hc, rfl⟩
  · rintro ⟨hv, c, hc, rfl⟩
    exact ⟨⟨c, hc, rfl⟩, by simpa using hv⟩

lemma mem_bucket {g : List Cell} {v : Nat} {c : Cell} :
    c ∈ bucket g v ↔ c ∈ g ∧ c.value = v := by
  unfold bucket
  rw [List.mem_filter]
  simp

lemma nodup_const_length {α : Type*} {l : List α} {c : α} (h : l.Nodup)
    (hall : ∀ x ∈ l, x = c) : l.length ≤ 1 := by
  match l with
  | [] => simp
  | [a] => simp
  | a :: b :: t =>
    exfalso
    have ha := hall a (by simp)
    have hb := hall b (by simp)
    rw [List.nodup_cons] at h
    exact h.1 (by rw [ha, ← hb]; simp)

lemma length_bucket_iff {g : List Cell} (hg : g.Nodup) {c : Cell} (hc : c ∈ g) :
    1 < (bucket g c.value).length ↔ ∃ d ∈ g, d ≠ c ∧ d.value = c.value := by
  constructor
  · intro hlen
    have hbnd : (bucket g c.value).Nodup := List.Nodup.filter _ hg
    by_contra hno
    push_neg at hno
    have hsub : ∀ d ∈ bucket g c.value, d = c := by
      intro d hd
      rw [mem_bucket] at hd
      by_contra hne
      exact hno d hd.1 hne hd.2
    have := nodup_const_length hbnd hsub
    omega
  · rintro ⟨d, hd, hne, hdv⟩
    have hcb : c ∈ bucket g c.value := mem_bucket.mpr ⟨hc, rfl⟩
    have hdb : d ∈ bucket g c.value := mem_bucket.mpr ⟨hd, hdv⟩
    have h1 : d ∈ (bucket g c.value).erase c := (List.mem_erase_of_ne hne).mpr hdb
    have h3 := List.length_erase_of_mem hcb
    have h4 : 0 < ((bucket g c.value).erase c).length := List.length_pos_of_mem h1
    omega

lemma mem_groupConflicts {g : List Cell} (hg : g.Nodup) {c : Cell} :
    c ∈ groupConflicts g ↔
      c ∈ g ∧ c.value ≠ 0 ∧ ∃ d ∈ g, d ≠ c ∧ d.value = c.value := by
  unfold groupConflicts
  rw [List.mem_flatMap]
  constructor
  · rintro ⟨v, hv, hc⟩
    by_cases hb : 1 < (bucket g v).length
    · rw [if_pos hb] at hc
      rw [mem_bucket] at hc
      obtain ⟨hcg, hcv⟩ := hc
      subst hcv
      have hv' := mem_sortedKeys.mp hv
      exact ⟨hcg, hv'.1, (length_bucket_iff hg hcg).mp hb⟩
    · rw [if_neg hb] at hc
      simp at hc
  · rintro ⟨hcg, hnz, d, hd, hne, hdv⟩
    refine ⟨c.value, mem_sortedKeys.mpr ⟨hnz, c, hcg, rfl⟩, ?_⟩
    rw [if_pos ((length_bucket_iff hg hcg).mpr ⟨d, hd, hne, hdv⟩)]
    exact mem_bucket.mpr ⟨hcg, rfl⟩

lemma mem_checkConflicts {groups : List (List Cell)} {c : Cell} :
    c ∈ checkConflicts groups ↔ ∃ g, g ∈ groups ∧ c ∈ groupConflicts g := by
  unfold checkConflicts
  exact List.mem_flatMap

lemma nodup_rowGroup {cells : List Cell} (hlen : cells.length = 81)
    (hcan : Canonical cells) {t : Nat} (ht : t < 9) :
    (groupOfIndices cells (rowIndices t)).Nodup :=
  nodup_group hlen hcan (fun i hi => ((rowIndices_facts t ht).1 i hi).1)
    (rowIndices_facts t ht).2.2

lemma nodup_colGroup {cells : List Cell} (hlen : cells.length = 81)
    (hcan : Canonical cells) {t : Nat} (ht : t < 9) :
    (groupOfIndices cells (colIndices t)).Nodup :=
  nodup_group hlen hcan (fun i hi => ((colIndices_facts t ht).1 i hi).1)
    (colIndices_facts t ht).2.2

lemma nodup_boxGroup {cells : List Cell} (hlen : cells.length = 81)
    (hcan : Canonical cells) {t : Nat} (ht : t < 9) :
    (groupOfIndices cells (boxIndicesList t)).Nodup :=
  nodup_group hlen hcan (fun i hi => ((boxIndices_facts t ht).1 i hi).1)
    (boxIndices_facts t ht).2.2

/-- The row and column of a board cell, recovered from its index. -/
lemma mem_pos_range {cells : List Cell} (hlen : cells.length = 81)
    (hcan : Canonical cells) {c : Cell} (hc : c ∈ cells) :
    1 ≤ c.row ∧ c.row ≤ 9 ∧ 1 ≤ c.column ∧ c.column ≤ 9 := by
  obtain ⟨i, hi, hieq⟩ := (mem_iff_getD hlen).mp hc
  have hcell := hcan i (by omega)
  rw [hieq] at hcell
  omega

lemma mem_conflictsPre {cells : List Cell} (hlen : cells.length = 81)
    (hcan : Canonical cells) {c : Cell} :
    c ∈ unique (checkConflicts (rowsOf cells) ++ checkConflicts (colsOf cells) ++
      checkConflicts (boxesOf cells)) ↔ c ∈ cells ∧ isConflicted cells c := by
  rw [mem_unique, List.mem_append, List.mem_append, mem_checkConflicts,
    mem_checkConflicts, mem_checkConflicts]
  constructor
  · rintro ((⟨g, hg, hc⟩ | ⟨g, hg, hc⟩) | ⟨g, hg, hc⟩)
    · obtain ⟨t, ht, rfl⟩ := mem_rowsOf.mp hg
      obtain ⟨hcg, hnz, d, hd, hne, hdv⟩ :=
        (mem_groupConflicts (nodup_rowGroup hlen hcan ht)).mp hc
      have hcmem := (mem_rowGroup hlen hcan ht).mp hcg
      have hdmem := (mem_rowGroup hlen hcan ht).mp hd
      exact ⟨hcmem.1, hnz, d, hdmem.1, hne, hdv, Or.inl (by rw [hcmem.2, hdmem.2])⟩
    · obtain ⟨t, ht, rfl⟩ := mem_colsOf.mp hg
      obtain ⟨hcg, hnz, d, hd, hne, hdv⟩ :=
        (mem_groupConflicts (nodup_colGroup hlen hcan ht)).mp hc
      have hcmem := (mem_colGroup hlen hcan ht).mp hcg
      have hdmem := (mem_colGroup hlen hcan ht).mp hd
      exact ⟨hcmem.1, hnz, d, hdmem.1, hne, hdv,
        Or.inr (Or.inl (by rw [hcmem.2, hdmem.2]))⟩
    · obtain ⟨t, ht, rfl⟩ := mem_boxesOf.mp hg
      obtain ⟨hcg, hnz, d, hd, hne, hdv⟩ :=
        (mem_groupConflicts (nodup_boxGroup hlen hcan ht)).mp hc
      have hcmem := (mem_boxGroup hlen hcan ht).mp hcg
      have hdmem := (mem_boxGroup hlen hcan ht).mp hd
      exact ⟨hcmem.1, hnz, d, hdmem.1, hne, hdv,
        Or.inr (Or.inr (by rw [hcmem.2, hdmem.2]))⟩
  · rintro ⟨hc, hnz, d, hd, hne, hdv, hsame⟩
    have hcpos := mem_pos_range hlen hcan hc
    rcases hsame with hrow | hcol | hbox
    · left
      left
      have ht : c.row - 1 < 9 := by omega
      refine ⟨groupOfIndices cells (rowIndices (c.row - 1)),
        mem_rowsOf.mpr ⟨c.row - 1, ht, rfl⟩, ?_⟩
      refine (mem_groupConflicts (nodup_rowGroup hlen hcan ht)).mpr
        ⟨(mem_rowGroup hlen hcan ht).mpr ⟨hc, by omega⟩, hnz, d,
          (mem_rowGroup hlen hcan ht).mpr ⟨hd, by omega⟩, hne, hdv⟩
    · left
      right
      have ht : c.column - 1 < 9 := by omega
      refine ⟨groupOfIndices cells (colIndices (c.column - 1)),
        mem_colsOf.mpr ⟨c.column - 1, ht, rfl⟩, ?_⟩
      refine (mem_groupConflicts (nodup_colGroup hlen hcan ht)).mpr
        ⟨(mem_colGroup hlen hcan ht).mpr ⟨hc, by omega⟩, hnz, d,
          (mem_colGroup hlen hcan ht).mpr ⟨hd, by omega⟩, hne, hdv⟩
    · right
      have hb9 : 1 ≤ boxNum c ∧ boxNum c ≤ 9 := by
        unfold boxNum
        omega
      have ht : boxNum c - 1 < 9 := by omega
      refine ⟨groupOfIndices cells (boxIndicesList (boxNum c - 1)),
        mem_boxesOf.mpr ⟨boxNum c - 1, ht, rfl⟩, ?_⟩
      refine (mem_groupConflicts (nodup_boxGroup hlen hcan ht)).mpr
        ⟨(mem_boxGroup hlen hcan ht).mpr ⟨hc, by omega⟩, hnz, d,
          (mem_boxGroup hlen hcan ht).mpr ⟨hd, by omega⟩, hne, hdv⟩

instance : IsTotal Cell cellLe :=
  ⟨fun a b => by unfold cellLe; omega⟩

instance : IsTrans Cell cellLe :=
  ⟨fun a b c hab hbc => by unfold cellLe at hab hbc ⊢; omega⟩

lemma pairwise_imp_mem {α : Type*} (P : α → Prop) {R S : α → α → Prop}
    (h : ∀ x y, P x → P y → R x y → S x y) :
    ∀ {l : List α}, (∀ x ∈ l, P x) → l.Pairwise R → l.Pairwise S := by
  intro l
  induction l with
  | nil => exact fun _ _ => List.Pairwise.nil
  | cons a t ih =>
    intro hP hR
    rw [List.pairwise_cons] at hR ⊢
    refine ⟨fun b hb => h a b (hP a (List.mem_cons_self a t))
      (hP b (List.mem_cons_of_mem _ hb)) (hR.1 b hb), ?_⟩
    exact ih (fun x hx => hP x (List.mem_cons_of_mem _ hx)) hR.2

/-- C2: `getConflicts` returns exactly the cells whose nonzero value is
duplicated inside some row, column or box group containing them; the result
contains no cell twice (all positions are pairwise distinct) and is strictly
sorted ascending by row and, within a row, by column. -/
theorem getConflicts_spec (cells : List Cell) (hlen : cells.length = 81)
    (hcan : Canonical cells) :
    (∀ c, c ∈ getConflicts cells ↔ c ∈ cells ∧ isConflicted cells c) ∧
    (getConflicts cells).Pairwise cellLt := by
  have hperm := List.perm_insertionSort cellLe
    (unique (checkConflicts (rowsOf cells) ++ checkConflicts (colsOf cells) ++
      checkConflicts (boxesOf cells)))
  have hmem : ∀ c, c ∈ getConflicts cells ↔ c ∈ cells ∧ isConflicted cells c := by
    intro c
    unfold getConflicts
    rw [hperm.mem_iff]
    exact mem_conflictsPre hlen hcan
  refine ⟨hmem, ?_⟩
  have hsorted : (getConflicts cells).Pairwise cellLe :=
    List.sorted_insertionSort cellLe _
  have hnd : (getConflicts cells).Nodup := by
    unfold getConflicts
    exact hperm.nodup_iff.mpr (nodup_unique _)
  have hand := hsorted.and hnd
  refine pairwise_imp_mem (fun c => c ∈ cells) ?_ ?_ hand
  · intro a b ha hb hab
    obtain ⟨hle, hne⟩ := hab
    unfold cellLe at hle
    unfold cellLt
    rcases hle with h | ⟨hr, hc⟩
    · exact Or.inl h
    · right
      refine ⟨hr, ?_⟩
      rcases Nat.lt_or_ge a.column b.column with h | h
      · exact h
      · have hcc : a.column = b.column := by omega
        exact absurd (pos_inj hlen hcan ha hb hr hcc) hne
  · intro x hx
    exact ((hmem x).mp hx).1

theorem getConflicts_spec_witness :
    (twoFivesBoard.getD 0 default) ∈ getConflicts twoFivesBoard ↔
      (twoFivesBoard.getD 0 default) ∈ twoFivesBoard ∧
        isConflicted twoFivesBoard (twoFivesBoard.getD 0 default) :=
  (getConflicts_spec twoFivesBoard (by decide) (by decide)).1 _

/-! ### Claim C7 -/

end Sudoku
